import Mathlib

/-!
# Account ledger store (`internal/models/user.go`)

A shallow embedding of the five operations of `user.go` over the `users`
table.  The database handle is modelled by the contents of the table, a list of
rows in rowid order; every operation takes the table and returns the new table
together with the Go `error` value (`none` is `nil`).  The storage clock
(`CURRENT_TIMESTAMP`) is an explicit argument `now`, in seconds.  Driver and
connection failures of the handle are outside the model: a statement either runs
or is rejected by a constraint of the schema.

Go `int` is modelled by `Int` with explicit wrap-around at 64 bits.
-/

namespace Models

/-! ## Go `int` arithmetic -/

/-- Wrap an integer into the range of Go 64-bit signed `int`. -/
def wrapInt (x : Int) : Int := (x + 2 ^ 63) % 2 ^ 64 - 2 ^ 63

/-- Go `a + b` on `int`. -/
def addInt (a b : Int) : Int := wrapInt (a + b)

/-- The values a Go `int` can hold. -/
def InRange (x : Int) : Prop := -(2 ^ 63) ≤ x ∧ x < 2 ^ 63

instance (x : Int) : Decidable (InRange x) := by unfold InRange; infer_instance

/-! ## Data model -/

/-- The `User` struct, one row of the `users` table. -/
structure User where
  ID : Nat
  Username : String
  Token : String
  Count : Int
  Status : Int
  CreateTime : Nat
  UpdateTime : Nat
deriving DecidableEq, Repr

/-- The contents of the `users` table, in rowid order. -/
abbrev Table := List User

/-- The errors the operations return. `uniqueConstraint` is the error of the driver for a
rejected statement (`DuplicateKey` and `TokenCollision` in the spec). -/
inductive Err where
  | userNotFound
  | concurrentUpdate
  | uniqueConstraint
deriving DecidableEq, Repr

/-! ## The schema -/

/-- Modelled from the spec: the `CREATE TABLE users` statement is not part of the
source; section 6 of the spec (and the `sql` tags of the `User` struct) declare `id`
the primary key, `username` and `token` unique, and `count` an integer column (64-bit
in the storage engine).  A table state satisfies them. -/
structure WellFormed (tbl : Table) : Prop where
  ids : (tbl.map User.ID).Nodup
  usernames : (tbl.map User.Username).Nodup
  tokens : (tbl.map User.Token).Nodup
  counts : ∀ r ∈ tbl, InRange r.Count

/-- Modelled from the spec: `id` is "assigned by storage on creation"; the storage
engine gives a new row the largest rowid in use plus one. -/
def nextID (tbl : Table) : Nat := (tbl.map User.ID).foldr max 0 + 1

/-- Modelled from the spec: the uniqueness check the storage layer makes on
`INSERT`: some row already holds the username or the token. -/
def insertConflict (tbl : Table) (username token : String) : Bool :=
  tbl.any (fun r => r.Username = username || r.Token = token)

/-- Modelled from the spec: the uniqueness check the storage layer makes on
`UPDATE users SET token = ? WHERE id = ?`: a row is being updated and a row with
another id already holds the new token. -/
def tokenConflict (tbl : Table) (id : Nat) (token : String) : Bool :=
  tbl.any (fun r => r.ID = id) && tbl.any (fun r => r.ID ≠ id && r.Token = token)

/-! ## SQL statements of the source -/

/-- The query `SELECT ... FROM users WHERE token = ?` followed by `row.Scan`:
the first matching row, or `sql.ErrNoRows`. -/
def selectByToken (tbl : Table) (token : String) : Option User :=
  tbl.find? (fun r => r.Token = token)

/-- The query `SELECT ... FROM users WHERE username = ?` followed by `row.Scan`. -/
def selectByName (tbl : Table) (username : String) : Option User :=
  tbl.find? (fun r => r.Username = username)

/-- The statement `UPDATE users SET count = ?, update_time = CURRENT_TIMESTAMP
WHERE id = ? AND count = ?`: the new table and the number of rows affected. -/
def updateCount (tbl : Table) (newCount : Int) (id : Nat) (prevCount : Int) (now : Nat) :
    Table × Nat :=
  (tbl.map (fun r => if r.ID = id ∧ r.Count = prevCount
      then { r with Count := newCount, UpdateTime := now } else r),
   tbl.countP (fun r => r.ID = id ∧ r.Count = prevCount))

/-- The statement `UPDATE users SET token = ? WHERE id = ?`: rejected by the unique
constraint on `token`, or the new table and the number of rows affected. -/
def updateToken (tbl : Table) (token : String) (id : Nat) : Except Err (Table × Nat) :=
  if tokenConflict tbl id token then .error .uniqueConstraint
  else .ok (tbl.map (fun r => if r.ID = id then { r with Token := token } else r),
            tbl.countP (fun r => r.ID = id))

/-! ## The operations -/

/-- `AddUser`: `INSERT INTO users (username, token, status, create_time, update_time)`;
`count` takes its default 0. -/
def AddUser (tbl : Table) (username token : String) (status : Int) (now : Nat) :
    Table × Option Err :=
  if insertConflict tbl username token then (tbl, some .uniqueConstraint)
  else (tbl ++ [{ ID := nextID tbl, Username := username, Token := token, Count := 0,
                  Status := status, CreateTime := now, UpdateTime := now }], none)

/-- The read step of `AddCount` (lines 63-76): the snapshot `(id, prevCount)`. The
query also scans `update_time` into `prevUpdateTime`, which is never used. -/
def addCountRead (tbl : Table) (token : String) : Except Err (Nat × Int) :=
  match selectByToken tbl token with
  | none => .error .userNotFound
  | some r => .ok (r.ID, r.Count)

/-- The write step of `AddCount` (lines 79-103): one conditional `UPDATE`, and the
check of the rows affected. -/
def addCountWrite (tbl : Table) (id : Nat) (prevCount count : Int) (now : Nat) :
    Table × Option Err :=
  let res := updateCount tbl (addInt prevCount count) id prevCount now
  if res.2 = 0 then (res.1, some .concurrentUpdate) else (res.1, none)

/-- `AddCount`, run with no other statement between its read and its write. -/
def AddCount (tbl : Table) (token : String) (count : Int) (now : Nat) : Table × Option Err :=
  match addCountRead tbl token with
  | .error e => (tbl, some e)
  | .ok (id, prevCount) => addCountWrite tbl id prevCount count now

/-- `QueryUserByToken`. -/
def QueryUserByToken (tbl : Table) (token : String) : Except Err User :=
  match selectByToken tbl token with
  | none => .error .userNotFound
  | some r => .ok r

/-- `QueryUserByName`. -/
def QueryUserByName (tbl : Table) (username : String) : Except Err User :=
  match selectByName tbl username with
  | none => .error .userNotFound
  | some r => .ok r

/-- The read step of `UpdateTokenByName` (lines 162-174): the id of the user. -/
def updateTokenRead (tbl : Table) (username : String) : Except Err Nat :=
  match selectByName tbl username with
  | none => .error .userNotFound
  | some r => .ok r.ID

/-- The write step of `UpdateTokenByName` (lines 177-200). -/
def updateTokenWrite (tbl : Table) (id : Nat) (token : String) : Table × Option Err :=
  match updateToken tbl token id with
  | .error e => (tbl, some e)
  | .ok res => if res.2 = 0 then (res.1, some .concurrentUpdate) else (res.1, none)

/-- `UpdateTokenByName`, run with no other statement between its read and its write. -/
def UpdateTokenByName (tbl : Table) (username token : String) : Table × Option Err :=
  match updateTokenRead tbl username with
  | .error e => (tbl, some e)
  | .ok id => updateTokenWrite tbl id token

/-! ## Sequences of calls -/

/-- One call of a mutating operation of the store. -/
inductive Call where
  | addUser (username token : String) (status : Int)
  | addCount (token : String) (count : Int)
  | updateTokenByName (username token : String)
deriving DecidableEq, Repr

/-- Run one call at clock reading `now`. -/
def Call.run (tbl : Table) (c : Call) (now : Nat) : Table × Option Err :=
  match c with
  | .addUser u t s => AddUser tbl u t s now
  | .addCount t d => AddCount tbl t d now
  | .updateTokenByName u t => UpdateTokenByName tbl u t

/-- Run a sequence of calls, each with its clock reading, one after the other. -/
def runCalls (tbl : Table) (calls : List (Call × Nat)) : Table :=
  calls.foldl (fun t c => (Call.run t c.1 c.2).1) tbl

/-! ## Interleaved `AddCount` calls

`AddCount` is two statements, the `SELECT` and the conditional `UPDATE`; each is
atomic, and statements of different callers interleave freely. -/

/-- What a caller of `AddCount` holds between its read and its write: the snapshot
`(id, prevCount)` and its argument `count`. -/
structure Snapshot where
  id : Nat
  prevCount : Int
  count : Int
deriving DecidableEq, Repr

/-- One atomic step of some caller: the read of a new `AddCount(token, count)` call,
or the write of the call it has in flight (at clock reading `now`). -/
inductive Step where
  | read (caller : Nat) (count : Int)
  | write (caller : Nat) (now : Nat)
deriving DecidableEq, Repr

/-- The table, the call each caller has in flight, and the arguments `count` of the
calls that returned `nil` so far (latest first). -/
structure Sys where
  tbl : Table
  inFlight : Nat → Option Snapshot
  succeeded : List Int

/-- Run one step of the interleaving; every call is on `token`. A write of a caller
with no call in flight is no step of `AddCount` and does nothing. -/
def Sys.step (token : String) (s : Sys) : Step → Sys
  | .read k d =>
    match addCountRead s.tbl token with
    | .error _ => { s with inFlight := fun j => if j = k then none else s.inFlight j }
    | .ok (id, prev) =>
      { s with inFlight := fun j => if j = k then some ⟨id, prev, d⟩ else s.inFlight j }
  | .write k now =>
    match s.inFlight k with
    | none => s
    | some snap =>
      let res := addCountWrite s.tbl snap.id snap.prevCount snap.count now
      { tbl := res.1
        inFlight := fun j => if j = k then none else s.inFlight j
        succeeded := if res.2 = none then snap.count :: s.succeeded else s.succeeded }

/-- Run an interleaving from the table `tbl` with no call in flight. -/
def runSteps (token : String) (tbl : Table) (steps : List Step) : Sys :=
  steps.foldl (Sys.step token) { tbl := tbl, inFlight := fun _ => none, succeeded := [] }

/-- The invariant of an interleaving of `AddCount` calls on `token`, the token of the
account `rid` whose count was `c0` at the start: the table satisfies its schema, the
account holds `c0` plus the deltas of the calls that succeeded (wrapped as a Go `int`),
and every snapshot in flight is a snapshot of that account. -/
def StepInv (token : String) (rid : Nat) (c0 : Int) (s : Sys) : Prop :=
  WellFormed s.tbl ∧
    (∃ x ∈ s.tbl, x.ID = rid ∧ x.Token = token ∧
      x.Count = wrapInt (c0 + s.succeeded.sum)) ∧
    ∀ k snap, s.inFlight k = some snap → snap.id = rid

/-- Every call so far, finished or in flight, has delta 1. -/
def AllOnes (s : Sys) : Prop :=
  (∀ d ∈ s.succeeded, d = 1) ∧ ∀ k snap, s.inFlight k = some snap → snap.count = 1

/-! ## Sample data -/

/-- The account of the scenario of the spec, after its first increment by 5. -/
def alice : User :=
  { ID := 1, Username := "alice", Token := "tok-1", Count := 5, Status := 1,
    CreateTime := 100, UpdateTime := 100 }

/-- A second account. -/
def bob : User :=
  { ID := 2, Username := "bob", Token := "tok-2", Count := 0, Status := 1,
    CreateTime := 150, UpdateTime := 150 }

/-- An account whose counter holds the largest Go `int`. -/
def carol : User :=
  { ID := 3, Username := "carol", Token := "tok-3", Count := 2 ^ 63 - 1, Status := 1,
    CreateTime := 100, UpdateTime := 100 }

/-! ## Lemmas on the statements -/

theorem wrapInt_of_inRange {x : Int} (h : InRange x) : wrapInt x = x := by
  unfold InRange at h
  unfold wrapInt
  omega

theorem wrapInt_inRange (x : Int) : InRange (wrapInt x) := by
  unfold InRange wrapInt
  omega

theorem wrapInt_add_wrapInt (a b : Int) : wrapInt (wrapInt a + b) = wrapInt (a + b) := by
  unfold wrapInt
  omega

theorem eq_of_mem_of_id_eq {tbl : Table} (h : (tbl.map User.ID).Nodup) {x y : User}
    (hx : x ∈ tbl) (hy : y ∈ tbl) (hxy : x.ID = y.ID) : x = y :=
  List.inj_on_of_nodup_map h hx hy hxy

theorem eq_of_mem_of_token_eq {tbl : Table} (h : (tbl.map User.Token).Nodup) {x y : User}
    (hx : x ∈ tbl) (hy : y ∈ tbl) (hxy : x.Token = y.Token) : x = y :=
  List.inj_on_of_nodup_map h hx hy hxy

theorem eq_of_mem_of_username_eq {tbl : Table} (h : (tbl.map User.Username).Nodup)
    {x y : User} (hx : x ∈ tbl) (hy : y ∈ tbl) (hxy : x.Username = y.Username) : x = y :=
  List.inj_on_of_nodup_map h hx hy hxy

theorem selectByToken_of_mem {tbl : Table} (h : (tbl.map User.Token).Nodup) {r : User}
    (hr : r ∈ tbl) : selectByToken tbl r.Token = some r := by
  unfold selectByToken
  cases hf : tbl.find? (fun x => x.Token = r.Token) with
  | none =>
    have := List.find?_eq_none.mp hf r hr
    simp at this
  | some x =>
    have hx := List.mem_of_find?_eq_some hf
    have hp := List.find?_some hf
    simp at hp
    rw [eq_of_mem_of_token_eq h hx hr hp]

theorem selectByName_of_mem {tbl : Table} (h : (tbl.map User.Username).Nodup) {r : User}
    (hr : r ∈ tbl) : selectByName tbl r.Username = some r := by
  unfold selectByName
  cases hf : tbl.find? (fun x => x.Username = r.Username) with
  | none =>
    have := List.find?_eq_none.mp hf r hr
    simp at this
  | some x =>
    have hx := List.mem_of_find?_eq_some hf
    have hp := List.find?_some hf
    simp at hp
    rw [eq_of_mem_of_username_eq h hx hr hp]

theorem selectByToken_eq_none {tbl : Table} {token : String}
    (h : ∀ r ∈ tbl, r.Token ≠ token) : selectByToken tbl token = none := by
  unfold selectByToken
  rw [List.find?_eq_none]
  intro r hr
  simpa using h r hr

theorem updateCount_ids (tbl : Table) (n : Int) (id : Nat) (p : Int) (now : Nat) :
    (updateCount tbl n id p now).1.map User.ID = tbl.map User.ID := by
  unfold updateCount
  simp only [List.map_map]
  apply List.map_congr_left
  intro r _
  simp only [Function.comp]
  split <;> rfl

theorem updateCount_tokens (tbl : Table) (n : Int) (id : Nat) (p : Int) (now : Nat) :
    (updateCount tbl n id p now).1.map User.Token = tbl.map User.Token := by
  unfold updateCount
  simp only [List.map_map]
  apply List.map_congr_left
  intro r _
  simp only [Function.comp]
  split <;> rfl

theorem updateCount_usernames (tbl : Table) (n : Int) (id : Nat) (p : Int) (now : Nat) :
    (updateCount tbl n id p now).1.map User.Username = tbl.map User.Username := by
  unfold updateCount
  simp only [List.map_map]
  apply List.map_congr_left
  intro r _
  simp only [Function.comp]
  split <;> rfl

theorem updateCount_affected_eq_zero (tbl : Table) (n : Int) (id : Nat) (p : Int) (now : Nat) :
    (updateCount tbl n id p now).2 = 0 ↔ ¬ ∃ r ∈ tbl, r.ID = id ∧ r.Count = p := by
  unfold updateCount
  simp [List.countP_eq_zero]

theorem updateCount_unchanged (tbl : Table) (n : Int) (id : Nat) (p : Int) (now : Nat)
    (h : ¬ ∃ r ∈ tbl, r.ID = id ∧ r.Count = p) : (updateCount tbl n id p now).1 = tbl := by
  unfold updateCount
  simp only
  conv_rhs => rw [← List.map_id tbl]
  apply List.map_congr_left
  intro r hr
  have : ¬ (r.ID = id ∧ r.Count = p) := fun hc => h ⟨r, hr, hc⟩
  simp [this]

theorem mem_updateCount {tbl : Table} {n : Int} {id : Nat} {p : Int} {now : Nat} {x : User} :
    x ∈ (updateCount tbl n id p now).1 ↔
      ∃ y ∈ tbl, (if y.ID = id ∧ y.Count = p
        then { y with Count := n, UpdateTime := now } else y) = x := by
  unfold updateCount
  simp only [List.mem_map]

theorem addCountRead_of_mem {tbl : Table} (h : (tbl.map User.Token).Nodup) {r : User}
    (hr : r ∈ tbl) : addCountRead tbl r.Token = .ok (r.ID, r.Count) := by
  unfold addCountRead
  rw [selectByToken_of_mem h hr]

theorem addCount_eq_write {tbl : Table} (h : (tbl.map User.Token).Nodup) {r : User}
    (hr : r ∈ tbl) (d : Int) (now : Nat) :
    AddCount tbl r.Token d now = addCountWrite tbl r.ID r.Count d now := by
  unfold AddCount
  rw [addCountRead_of_mem h hr]

theorem addCountWrite_tbl (tbl : Table) (id : Nat) (p d : Int) (now : Nat) :
    (addCountWrite tbl id p d now).1 = (updateCount tbl (addInt p d) id p now).1 := by
  unfold addCountWrite
  simp only
  split <;> rfl

theorem addCountWrite_err (tbl : Table) (id : Nat) (p d : Int) (now : Nat) :
    (addCountWrite tbl id p d now).2 =
      if (updateCount tbl (addInt p d) id p now).2 = 0 then some Err.concurrentUpdate
      else none := by
  unfold addCountWrite
  simp only
  split <;> rfl

theorem addCountWrite_ok_of_mem {tbl : Table} {r : User} (hr : r ∈ tbl) (d : Int) (now : Nat) :
    (addCountWrite tbl r.ID r.Count d now).2 = none := by
  rw [addCountWrite_err]
  have : ¬ (updateCount tbl (addInt r.Count d) r.ID r.Count now).2 = 0 := by
    rw [updateCount_affected_eq_zero]
    exact fun h => h ⟨r, hr, rfl, rfl⟩
  simp [this]

theorem addCountWrite_err_iff (tbl : Table) (id : Nat) (c d : Int) (now : Nat) :
    (addCountWrite tbl id c d now).2 = some Err.concurrentUpdate ↔
      ¬ ∃ r ∈ tbl, r.ID = id ∧ r.Count = c := by
  rw [addCountWrite_err, ← updateCount_affected_eq_zero tbl (addInt c d) id c now]
  split <;> simp_all

theorem addCountWrite_stale {tbl : Table} {id : Nat} {c : Int}
    (h : ¬ ∃ r ∈ tbl, r.ID = id ∧ r.Count = c) (d : Int) (now : Nat) :
    addCountWrite tbl id c d now = (tbl, some Err.concurrentUpdate) := by
  apply Prod.ext
  · rw [addCountWrite_tbl]
    exact updateCount_unchanged tbl _ id c now h
  · exact (addCountWrite_err_iff tbl id c d now).mpr h

theorem updateCount_row {tbl : Table} (hids : (tbl.map User.ID).Nodup) {r : User}
    (hr : r ∈ tbl) (n : Int) (now : Nat) :
    ∀ x ∈ (updateCount tbl n r.ID r.Count now).1, x.ID = r.ID →
      x = { r with Count := n, UpdateTime := now } := by
  intro x hx hid
  obtain ⟨y, hy, rfl⟩ := mem_updateCount.mp hx
  have hyid : y.ID = r.ID := by
    split at hid <;> simpa using hid
  have := eq_of_mem_of_id_eq hids hy hr hyid
  subst this
  simp

theorem updateCount_row_mem {tbl : Table} {r : User} (hr : r ∈ tbl) (n : Int) (now : Nat) :
    { r with Count := n, UpdateTime := now } ∈ (updateCount tbl n r.ID r.Count now).1 :=
  mem_updateCount.mpr ⟨r, hr, by simp⟩

theorem updateCount_other {tbl : Table} {n : Int} {id : Nat} {p : Int} {now : Nat}
    {x : User} (hx : x.ID ≠ id) : x ∈ (updateCount tbl n id p now).1 ↔ x ∈ tbl := by
  constructor
  · intro hmem
    obtain ⟨y, hy, rfl⟩ := mem_updateCount.mp hmem
    split at hx
    · next hc => exact absurd (by simpa using hc.1) hx
    · split
      · next h1 h2 => exact absurd h2 h1
      · exact hy
  · intro hmem
    exact mem_updateCount.mpr ⟨x, hmem, by simp [hx]⟩

theorem addInt_inRange (a b : Int) : InRange (addInt a b) := wrapInt_inRange _

theorem addInt_ne_self (c : Int) {d : Int} (hd : InRange d) (h0 : d ≠ 0) :
    addInt c d ≠ c := by
  unfold InRange at hd
  unfold addInt wrapInt
  omega

theorem updateCount_wellFormed {tbl : Table} (hwf : WellFormed tbl) {n : Int}
    (hn : InRange n) (id : Nat) (p : Int) (now : Nat) :
    WellFormed (updateCount tbl n id p now).1 := by
  refine ⟨?_, ?_, ?_, ?_⟩
  · rw [updateCount_ids]; exact hwf.ids
  · rw [updateCount_usernames]; exact hwf.usernames
  · rw [updateCount_tokens]; exact hwf.tokens
  · intro x hx
    obtain ⟨y, hy, rfl⟩ := mem_updateCount.mp hx
    split
    · exact hn
    · exact hwf.counts y hy

/-! ## The counter increment -/

/-- C4: when no account holds the token, `AddCount` returns the error "user not found"
for every delta and leaves the table exactly as it was (it never reaches its write). -/
theorem addCount_userNotFound (tbl : Table) (token : String) (delta : Int) (now : Nat)
    (h : ∀ r ∈ tbl, r.Token ≠ token) :
    AddCount tbl token delta now = (tbl, some Err.userNotFound) := by
  unfold AddCount addCountRead
  rw [selectByToken_eq_none h]

theorem addCount_userNotFound_witness :
    (∀ r ∈ [alice, bob], r.Token ≠ "no-such-token") ∧
      AddCount [alice, bob] "no-such-token" 1 200 = ([alice, bob], some Err.userNotFound) :=
  ⟨by decide, addCount_userNotFound [alice, bob] "no-such-token" 1 200 (by decide)⟩

/-- C10: the write step of `AddCount`, for a snapshot `(id, c)`, returns the error
"concurrent update detected" exactly when the table holds no row with that id whose
count is `c`; on that error the table is unchanged; and `AddCount` is one read followed
by one write, with no retry. -/
theorem addCountWrite_concurrentUpdate_iff (tbl : Table) (id : Nat) (c delta : Int)
    (now : Nat) :
    ((addCountWrite tbl id c delta now).2 = some Err.concurrentUpdate ↔
        ¬ ∃ r ∈ tbl, r.ID = id ∧ r.Count = c) ∧
      ((addCountWrite tbl id c delta now).2 = some Err.concurrentUpdate →
        (addCountWrite tbl id c delta now).1 = tbl) ∧
      (∀ token, addCountRead tbl token = .ok (id, c) →
        AddCount tbl token delta now = addCountWrite tbl id c delta now) := by
  refine ⟨addCountWrite_err_iff tbl id c delta now, ?_, ?_⟩
  · intro h
    rw [addCountWrite_stale ((addCountWrite_err_iff tbl id c delta now).mp h)]
  · intro token h
    unfold AddCount
    rw [h]

theorem addCountWrite_concurrentUpdate_iff_witness :
    (addCountWrite [{ alice with Count := 8 }] 1 5 3 200).2 = some Err.concurrentUpdate ∧
      (addCountWrite [{ alice with Count := 8 }] 1 5 3 200).1 = [{ alice with Count := 8 }] ∧
      AddCount [alice] "tok-1" 3 200 = addCountWrite [alice] 1 5 3 200 :=
  ⟨(addCountWrite_concurrentUpdate_iff [{ alice with Count := 8 }] 1 5 3 200).1.mpr
      (by decide),
    (addCountWrite_concurrentUpdate_iff [{ alice with Count := 8 }] 1 5 3 200).2.1
      (by decide),
    (addCountWrite_concurrentUpdate_iff [alice] 1 5 3 200).2.2 "tok-1" rfl⟩

/-- C1: on a table that satisfies its schema, for a token held by the account `r` with
count `c`, `AddCount(token, delta)` run alone returns `nil`; the table keeps the same
accounts; the account of `r` is `r` with count `c + delta` (the Go sum, which is the
integer sum whenever that fits an `int`) and a fresh update time, so its id, username,
token, status and create time are unchanged; every other account is unchanged. -/
theorem addCount_success (tbl : Table) (hwf : WellFormed tbl) (r : User) (hr : r ∈ tbl)
    (token : String) (htok : r.Token = token) (delta : Int) (now : Nat) :
    (AddCount tbl token delta now).2 = none ∧
      (AddCount tbl token delta now).1.map User.ID = tbl.map User.ID ∧
      (∀ x ∈ (AddCount tbl token delta now).1, x.ID = r.ID →
        x = { r with Count := addInt r.Count delta, UpdateTime := now }) ∧
      (∃ x ∈ (AddCount tbl token delta now).1, x.ID = r.ID) ∧
      (∀ x, x.ID ≠ r.ID → (x ∈ (AddCount tbl token delta now).1 ↔ x ∈ tbl)) ∧
      (InRange (r.Count + delta) → addInt r.Count delta = r.Count + delta) := by
  subst htok
  rw [addCount_eq_write hwf.tokens hr, addCountWrite_tbl]
  exact ⟨addCountWrite_ok_of_mem hr delta now, updateCount_ids _ _ _ _ _,
    updateCount_row hwf.ids hr _ now, ⟨_, updateCount_row_mem hr _ now, rfl⟩,
    fun x hx => updateCount_other hx, fun h => wrapInt_of_inRange h⟩

theorem addCount_success_witness :
    (AddCount [alice, bob] "tok-1" 3 200).2 = none ∧
      (AddCount [alice, bob] "tok-1" 3 200).1.map User.ID = [1, 2] ∧
      (∀ x ∈ (AddCount [alice, bob] "tok-1" 3 200).1, x.ID = 1 →
        x = { alice with Count := addInt 5 3, UpdateTime := 200 }) ∧
      (∃ x ∈ (AddCount [alice, bob] "tok-1" 3 200).1, x.ID = 1) ∧
      (∀ x, x.ID ≠ 1 → (x ∈ (AddCount [alice, bob] "tok-1" 3 200).1 ↔ x ∈ [alice, bob])) ∧
      (InRange (5 + 3) → addInt 5 3 = 5 + 3) :=
  addCount_success [alice, bob] ⟨by decide, by decide, by decide, by decide⟩ alice (by decide)
    "tok-1" rfl 3 200

/-- C9, counterexample: the account `carol` has count `2^63 - 1 >= 0`; `AddCount` with
delta `1 >= 0` returns `nil` and leaves the stored count `-2^63`, which is negative and
below the count before. -/
theorem addCount_overflow_decreases :
    0 ≤ carol.Count ∧ InRange carol.Count ∧ (0 : Int) ≤ 1 ∧
      (AddCount [carol] "tok-3" 1 200).2 = none ∧
      (AddCount [carol] "tok-3" 1 200).1.map User.Count = [-(2 ^ 63)] ∧
      ¬ (∀ x ∈ (AddCount [carol] "tok-3" 1 200).1, x.ID = carol.ID →
          carol.Count ≤ x.Count ∧ 0 ≤ x.Count) := by
  decide

/-- C9, amended: for an account with stored count `c >= 0` and a delta `>= 0` whose
sum `c + delta` fits a 64-bit signed `int`, `AddCount` returns `nil` and leaves the
stored count equal to `c + delta`, hence `>= c` and `>= 0`. -/
theorem addCount_monotone (tbl : Table) (hwf : WellFormed tbl) (r : User) (hr : r ∈ tbl)
    (token : String) (htok : r.Token = token) (delta : Int) (now : Nat)
    (hc : 0 ≤ r.Count) (hd : 0 ≤ delta) (hfit : r.Count + delta < 2 ^ 63) :
    (AddCount tbl token delta now).2 = none ∧
      (∃ x ∈ (AddCount tbl token delta now).1, x.ID = r.ID) ∧
      ∀ x ∈ (AddCount tbl token delta now).1, x.ID = r.ID →
        x.Count = r.Count + delta ∧ r.Count ≤ x.Count ∧ 0 ≤ x.Count := by
  subst htok
  rw [addCount_eq_write hwf.tokens hr, addCountWrite_tbl]
  refine ⟨addCountWrite_ok_of_mem hr delta now, ⟨_, updateCount_row_mem hr _ now, rfl⟩, ?_⟩
  intro x hx hid
  rw [updateCount_row hwf.ids hr _ now x hx hid]
  have hsum : addInt r.Count delta = r.Count + delta :=
    wrapInt_of_inRange ⟨by omega, hfit⟩
  dsimp only
  rw [hsum]
  omega

theorem addCount_monotone_witness :
    (AddCount [alice, bob] "tok-1" 3 200).2 = none ∧
      (∃ x ∈ (AddCount [alice, bob] "tok-1" 3 200).1, x.ID = alice.ID) ∧
      ∀ x ∈ (AddCount [alice, bob] "tok-1" 3 200).1, x.ID = alice.ID →
        x.Count = alice.Count + 3 ∧ alice.Count ≤ x.Count ∧ 0 ≤ x.Count :=
  addCount_monotone [alice, bob] ⟨by decide, by decide, by decide, by decide⟩ alice
    (by decide) "tok-1" rfl 3 200 (by decide) (by decide) (by decide)

/-- C3, counterexample: with delta 0 two callers that both read the snapshot
`(1, 5)` of `alice` both get `nil` from their conditional write: the first write leaves
the count at 5, so the guard `count = 5` of the second still matches one row. -/
theorem addCount_zero_delta_both_succeed :
    addCountRead [alice] "tok-1" = .ok (1, 5) ∧
      (addCountWrite [alice] 1 5 0 200).2 = none ∧
      (addCountWrite (addCountWrite [alice] 1 5 0 200).1 1 5 0 201).2 = none ∧
      (addCountWrite (addCountWrite [alice] 1 5 0 200).1 1 5 0 201).2 ≠
        some Err.concurrentUpdate :=
  ⟨rfl, by decide, by decide, by decide⟩

/-- C3, amended: for a delta (a Go `int`) other than 0, when two callers of `AddCount` on the
token of an account both hold the same snapshot `(id, c)`, the conditional write that
runs first returns `nil` and sets the count to `c + delta`; the other then returns
"concurrent update detected" and changes nothing; its retry reads `c + delta`, returns
`nil` and leaves the count at `c + delta + delta` (Go sums). -/
theorem addCount_race (tbl : Table) (hwf : WellFormed tbl) (r : User) (hr : r ∈ tbl)
    (token : String) (htok : r.Token = token) (delta : Int) (hd : InRange delta)
    (h0 : delta ≠ 0) (now1 now2 now3 : Nat) :
    addCountRead tbl token = .ok (r.ID, r.Count) ∧
      (addCountWrite tbl r.ID r.Count delta now1).2 = none ∧
      (∀ x ∈ (addCountWrite tbl r.ID r.Count delta now1).1, x.ID = r.ID →
        x.Count = addInt r.Count delta) ∧
      addCountWrite (addCountWrite tbl r.ID r.Count delta now1).1 r.ID r.Count delta now2 =
        ((addCountWrite tbl r.ID r.Count delta now1).1, some Err.concurrentUpdate) ∧
      addCountRead (addCountWrite tbl r.ID r.Count delta now1).1 token =
        .ok (r.ID, addInt r.Count delta) ∧
      (AddCount (addCountWrite tbl r.ID r.Count delta now1).1 token delta now3).2 = none ∧
      (∀ x ∈ (AddCount (addCountWrite tbl r.ID r.Count delta now1).1 token delta now3).1,
        x.ID = r.ID → x.Count = addInt (addInt r.Count delta) delta) := by
  subst htok
  have hwf1 : WellFormed (updateCount tbl (addInt r.Count delta) r.ID r.Count now1).1 :=
    updateCount_wellFormed hwf (addInt_inRange _ _) _ _ _
  have hr1 := updateCount_row_mem hr (addInt r.Count delta) now1
  have hrow := updateCount_row hwf.ids hr (addInt r.Count delta) now1
  rw [addCountWrite_tbl]
  refine ⟨addCountRead_of_mem hwf.tokens hr, addCountWrite_ok_of_mem hr delta now1, ?_, ?_,
    addCountRead_of_mem hwf1.tokens hr1, ?_, ?_⟩
  · intro x hx hid
    rw [hrow x hx hid]
  · apply addCountWrite_stale
    rintro ⟨x, hx, hid, hcount⟩
    rw [hrow x hx hid] at hcount
    exact addInt_ne_self r.Count hd h0 hcount
  · rw [addCount_eq_write hwf1.tokens hr1]
    exact addCountWrite_ok_of_mem hr1 delta now3
  · intro x hx hid
    rw [addCount_eq_write hwf1.tokens hr1, addCountWrite_tbl] at hx
    rw [updateCount_row hwf1.ids hr1 _ now3 x hx hid]

theorem addCount_race_witness :
    addCountRead [alice] "tok-1" = .ok (1, 5) ∧
      (addCountWrite [alice] 1 5 3 200).2 = none ∧
      (∀ x ∈ (addCountWrite [alice] 1 5 3 200).1, x.ID = 1 → x.Count = 8) ∧
      addCountWrite (addCountWrite [alice] 1 5 3 200).1 1 5 3 201 =
        ((addCountWrite [alice] 1 5 3 200).1, some Err.concurrentUpdate) ∧
      addCountRead (addCountWrite [alice] 1 5 3 200).1 "tok-1" = .ok (1, 8) ∧
      (AddCount (addCountWrite [alice] 1 5 3 200).1 "tok-1" 3 202).2 = none ∧
      (∀ x ∈ (AddCount (addCountWrite [alice] 1 5 3 200).1 "tok-1" 3 202).1,
        x.ID = 1 → x.Count = 11) :=
  addCount_race [alice] ⟨by decide, by decide, by decide, by decide⟩ alice (by decide)
    "tok-1" rfl 3 (by decide) (by decide) 200 201 202

/-! ## Lemmas on the token rotation -/

theorem find?_eq_some_of_unique {α : Type} {l : List α} {p : α → Bool} {a : α}
    (ha : a ∈ l) (hp : p a = true) (hu : ∀ x ∈ l, p x = true → x = a) :
    l.find? p = some a := by
  cases hf : l.find? p with
  | none =>
    have := List.find?_eq_none.mp hf a ha
    exact absurd hp this
  | some x =>
    rw [hu x (List.mem_of_find?_eq_some hf) (List.find?_some hf)]

theorem updateTokenRead_of_mem {tbl : Table} (h : (tbl.map User.Username).Nodup) {r : User}
    (hr : r ∈ tbl) : updateTokenRead tbl r.Username = .ok r.ID := by
  unfold updateTokenRead
  rw [selectByName_of_mem h hr]

theorem updateTokenByName_eq_write {tbl : Table} (h : (tbl.map User.Username).Nodup)
    {r : User} (hr : r ∈ tbl) (t : String) :
    UpdateTokenByName tbl r.Username t = updateTokenWrite tbl r.ID t := by
  unfold UpdateTokenByName
  rw [updateTokenRead_of_mem h hr]

theorem updateTokenWrite_tbl (tbl : Table) (id : Nat) (t : String) :
    (updateTokenWrite tbl id t).1 =
      if tokenConflict tbl id t then tbl
      else tbl.map (fun r => if r.ID = id then { r with Token := t } else r) := by
  unfold updateTokenWrite updateToken
  by_cases hc : tokenConflict tbl id t = true
  · simp [hc]
  · have hc2 : tokenConflict tbl id t = false := by simpa using hc
    simp only [hc2, Bool.false_eq_true, if_false]
    split <;> rfl

theorem updateTokenWrite_ok {tbl : Table} {id : Nat} {t : String}
    (h : (updateTokenWrite tbl id t).2 = none) : tokenConflict tbl id t = false := by
  unfold updateTokenWrite updateToken at h
  by_cases hc : tokenConflict tbl id t = true
  · simp [hc] at h
  · simpa using hc

theorem tokenConflict_false_of_mem {tbl : Table} {r : User} (hr : r ∈ tbl) {t : String}
    (h : tokenConflict tbl r.ID t = false) : ∀ x ∈ tbl, x.ID ≠ r.ID → x.Token ≠ t := by
  unfold tokenConflict at h
  intro x hx hne heq
  have h1 : tbl.any (fun y => decide (y.ID = r.ID)) = true :=
    List.any_eq_true.mpr ⟨r, hr, by simp⟩
  have h2 : tbl.any (fun y => decide (y.ID ≠ r.ID) && decide (y.Token = t)) = true :=
    List.any_eq_true.mpr ⟨x, hx, by simp [hne, heq]⟩
  rw [h1, h2] at h
  simp at h

theorem mem_setToken {tbl : Table} {id : Nat} {t : String} {x : User} :
    x ∈ tbl.map (fun r => if r.ID = id then { r with Token := t } else r) ↔
      ∃ y ∈ tbl, (if y.ID = id then { y with Token := t } else y) = x := by
  simp only [List.mem_map]

theorem setToken_row {tbl : Table} (hids : (tbl.map User.ID).Nodup) {r : User}
    (hr : r ∈ tbl) (t : String) :
    ∀ x ∈ tbl.map (fun y => if y.ID = r.ID then { y with Token := t } else y),
      x.ID = r.ID → x = { r with Token := t } := by
  intro x hx hid
  obtain ⟨y, hy, rfl⟩ := mem_setToken.mp hx
  have hyid : y.ID = r.ID := by
    split at hid <;> simpa using hid
  have := eq_of_mem_of_id_eq hids hy hr hyid
  subst this
  simp

theorem updateTokenByName_ok_tbl {tbl : Table} (hwf : WellFormed tbl) {r : User}
    (hr : r ∈ tbl) {t : String} (hok : (UpdateTokenByName tbl r.Username t).2 = none) :
    tokenConflict tbl r.ID t = false ∧
      (UpdateTokenByName tbl r.Username t).1 =
        tbl.map (fun y => if y.ID = r.ID then { y with Token := t } else y) := by
  rw [updateTokenByName_eq_write hwf.usernames hr] at hok ⊢
  have hc := updateTokenWrite_ok hok
  refine ⟨hc, ?_⟩
  rw [updateTokenWrite_tbl, hc]
  simp

/-! ## The token rotation and the timestamps -/

/-- C7, counterexample: rotating the token of `alice` to the token it already holds
returns `nil`, and `QueryUserByToken` of the old token then still returns the account
instead of "user not found". -/
theorem updateTokenByName_same_token_found :
    QueryUserByName [alice] "alice" = .ok alice ∧ alice.Token = "tok-1" ∧
      (UpdateTokenByName [alice] "alice" "tok-1").2 = none ∧
      QueryUserByToken (UpdateTokenByName [alice] "alice" "tok-1").1 "tok-1" = .ok alice ∧
      QueryUserByToken (UpdateTokenByName [alice] "alice" "tok-1").1 "tok-1" ≠
        .error Err.userNotFound := by
  refine ⟨rfl, rfl, by decide, rfl, ?_⟩
  rw [show QueryUserByToken (UpdateTokenByName [alice] "alice" "tok-1").1 "tok-1"
    = .ok alice from rfl]
  intro h
  cases h

/-- C7, amended: on a table that satisfies its schema, for the account `r` of username
`u` and a token `t2` other than the one it holds, if `UpdateTokenByName(u, t2)` returns
`nil` then `QueryUserByToken(t2)` returns `r` with its token replaced by `t2` (same id,
username, count, status and times) and `QueryUserByToken` of the old token returns
"user not found". -/
theorem updateTokenByName_moves_token (tbl : Table) (hwf : WellFormed tbl) (r : User)
    (hr : r ∈ tbl) (u : String) (hu : r.Username = u) (t2 : String) (hne : t2 ≠ r.Token)
    (hok : (UpdateTokenByName tbl u t2).2 = none) :
    QueryUserByName tbl u = .ok r ∧ QueryUserByToken tbl r.Token = .ok r ∧
      QueryUserByToken (UpdateTokenByName tbl u t2).1 t2 = .ok { r with Token := t2 } ∧
      QueryUserByToken (UpdateTokenByName tbl u t2).1 r.Token = .error Err.userNotFound := by
  subst hu
  obtain ⟨hc, htbl⟩ := updateTokenByName_ok_tbl hwf hr hok
  have hother := tokenConflict_false_of_mem hr hc
  rw [htbl]
  refine ⟨?_, ?_, ?_, ?_⟩
  · unfold QueryUserByName
    rw [selectByName_of_mem hwf.usernames hr]
  · unfold QueryUserByToken
    rw [selectByToken_of_mem hwf.tokens hr]
  · unfold QueryUserByToken selectByToken
    rw [find?_eq_some_of_unique (a := { r with Token := t2 })]
    · exact mem_setToken.mpr ⟨r, hr, by simp⟩
    · simp
    · intro x hx hp
      obtain ⟨y, hy, rfl⟩ := mem_setToken.mp hx
      by_cases hid : y.ID = r.ID
      · have := eq_of_mem_of_id_eq hwf.ids hy hr hid
        subst this
        simp
      · simp only [hid, if_false] at hp ⊢
        exact absurd (by simpa using hp) (hother y hy hid)
  · unfold QueryUserByToken selectByToken
    have hnone : (tbl.map (fun y => if y.ID = r.ID then { y with Token := t2 } else y)).find?
        (fun x => x.Token = r.Token) = none := by
      rw [List.find?_eq_none]
      intro x hx hp
      obtain ⟨y, hy, rfl⟩ := mem_setToken.mp hx
      by_cases hid : y.ID = r.ID
      · simp only [hid, if_true] at hp
        exact hne (by simpa using hp)
      · simp only [hid, if_false] at hp
        have hy2 : y.Token = r.Token := by simpa using hp
        exact hid (congrArg User.ID (eq_of_mem_of_token_eq hwf.tokens hy hr hy2))
    rw [hnone]

theorem updateTokenByName_moves_token_witness :
    QueryUserByName [alice, bob] "alice" = .ok alice ∧
      QueryUserByToken [alice, bob] alice.Token = .ok alice ∧
      QueryUserByToken (UpdateTokenByName [alice, bob] "alice" "tok-9").1 "tok-9" =
        .ok { alice with Token := "tok-9" } ∧
      QueryUserByToken (UpdateTokenByName [alice, bob] "alice" "tok-9").1 alice.Token =
        .error Err.userNotFound :=
  updateTokenByName_moves_token [alice, bob] ⟨by decide, by decide, by decide, by decide⟩
    alice (by decide) "alice" rfl "tok-9" (by decide) (by decide)

/-- C8, counterexample: `UpdateTokenByName` on `alice` returns `nil` and leaves her
update time at 100, its `UPDATE` sets only `token`; and `AddCount` on `alice` run while
the storage clock still reads 100 returns `nil` and leaves her update time at 100. In
neither case is the update time strictly greater than before. -/
theorem update_time_not_advanced :
    (UpdateTokenByName [alice] "alice" "tok-9").2 = none ∧
      (∃ x ∈ (UpdateTokenByName [alice] "alice" "tok-9").1,
        x.ID = alice.ID ∧ x.Token = "tok-9" ∧ ¬ alice.UpdateTime < x.UpdateTime) ∧
      (AddCount [alice] "tok-1" 3 100).2 = none ∧
      (∃ x ∈ (AddCount [alice] "tok-1" 3 100).1,
        x.ID = alice.ID ∧ x.Count = 8 ∧ ¬ alice.UpdateTime < x.UpdateTime) := by
  decide

/-- C8, amended: a successful `AddCount` sets the update time of the account to the
reading `now` of the storage clock, which is strictly greater than the update time
before whenever the clock reads later than it, and leaves the create time unchanged; a
successful `UpdateTokenByName` leaves the create time unchanged. -/
theorem mutation_timestamps (tbl : Table) (hwf : WellFormed tbl) (r : User) (hr : r ∈ tbl) :
    (∀ (delta : Int) (now : Nat), (AddCount tbl r.Token delta now).2 = none ∧
      ∀ x ∈ (AddCount tbl r.Token delta now).1, x.ID = r.ID →
        x.UpdateTime = now ∧ x.CreateTime = r.CreateTime ∧
          (r.UpdateTime < now → r.UpdateTime < x.UpdateTime)) ∧
      (∀ t2 : String, (UpdateTokenByName tbl r.Username t2).2 = none →
        ∀ x ∈ (UpdateTokenByName tbl r.Username t2).1, x.ID = r.ID →
          x.CreateTime = r.CreateTime) := by
  constructor
  · intro delta now
    rw [addCount_eq_write hwf.tokens hr, addCountWrite_tbl]
    refine ⟨addCountWrite_ok_of_mem hr delta now, ?_⟩
    intro x hx hid
    rw [updateCount_row hwf.ids hr _ now x hx hid]
    exact ⟨rfl, rfl, fun h => h⟩
  · intro t2 hok x hx hid
    rw [(updateTokenByName_ok_tbl hwf hr hok).2] at hx
    rw [setToken_row hwf.ids hr t2 x hx hid]

theorem mutation_timestamps_witness :
    ((AddCount [alice, bob] alice.Token 3 200).2 = none ∧
      ∀ x ∈ (AddCount [alice, bob] alice.Token 3 200).1, x.ID = alice.ID →
        x.UpdateTime = 200 ∧ x.CreateTime = alice.CreateTime ∧
          (alice.UpdateTime < 200 → alice.UpdateTime < x.UpdateTime)) ∧
      (UpdateTokenByName [alice, bob] alice.Username "tok-9").2 = none ∧
      ∀ x ∈ (UpdateTokenByName [alice, bob] alice.Username "tok-9").1, x.ID = alice.ID →
        x.CreateTime = alice.CreateTime :=
  ⟨(mutation_timestamps [alice, bob] ⟨by decide, by decide, by decide, by decide⟩ alice
      (by decide)).1 3 200,
    by decide,
    (mutation_timestamps [alice, bob] ⟨by decide, by decide, by decide, by decide⟩ alice
      (by decide)).2 "tok-9" (by decide)⟩

/-! ## Lemmas on the insertion and on the schema -/

theorem insertConflict_false {tbl : Table} {u t : String}
    (h : insertConflict tbl u t = false) : ∀ r ∈ tbl, r.Username ≠ u ∧ r.Token ≠ t := by
  unfold insertConflict at h
  intro r hr
  have := List.any_eq_false.mp h r hr
  simpa using this

theorem insertConflict_true {tbl : Table} {u t : String}
    (h : ∃ r ∈ tbl, r.Username = u ∨ r.Token = t) : insertConflict tbl u t = true := by
  obtain ⟨r, hr, hrt⟩ := h
  unfold insertConflict
  exact List.any_eq_true.mpr ⟨r, hr, by simpa using hrt⟩

theorem le_foldr_max {l : List Nat} {a : Nat} (ha : a ∈ l) : a ≤ l.foldr max 0 := by
  induction l with
  | nil => cases ha
  | cons b l ih =>
    simp only [List.foldr_cons]
    rcases List.mem_cons.mp ha with h | h
    · subst h
      exact Nat.le_max_left _ _
    · exact Nat.le_trans (ih h) (Nat.le_max_right _ _)

theorem lt_nextID {tbl : Table} {r : User} (hr : r ∈ tbl) : r.ID < nextID tbl := by
  unfold nextID
  exact Nat.lt_succ_of_le (le_foldr_max (List.mem_map_of_mem User.ID hr))

theorem wellFormed_nil : WellFormed [] :=
  ⟨List.nodup_nil, List.nodup_nil, List.nodup_nil, fun _ h => by cases h⟩

theorem addUser_wellFormed {tbl : Table} (hwf : WellFormed tbl) (u t : String) (s : Int)
    (now : Nat) : WellFormed (AddUser tbl u t s now).1 := by
  unfold AddUser
  by_cases hc : insertConflict tbl u t = true
  · simpa [hc] using hwf
  · have hc2 : insertConflict tbl u t = false := by simpa using hc
    have hfree := insertConflict_false hc2
    simp only [hc2, Bool.false_eq_true, if_false]
    refine ⟨?_, ?_, ?_, ?_⟩
    · rw [List.map_append, List.nodup_append]
      refine ⟨hwf.ids, by simp, ?_⟩
      intro a ha hb
      obtain ⟨r, hr, rfl⟩ := List.mem_map.mp ha
      have hlt := lt_nextID hr
      simp at hb
      omega
    · rw [List.map_append, List.nodup_append]
      refine ⟨hwf.usernames, by simp, ?_⟩
      intro a ha hb
      obtain ⟨r, hr, rfl⟩ := List.mem_map.mp ha
      simp at hb
      exact (hfree r hr).1 hb
    · rw [List.map_append, List.nodup_append]
      refine ⟨hwf.tokens, by simp, ?_⟩
      intro a ha hb
      obtain ⟨r, hr, rfl⟩ := List.mem_map.mp ha
      simp at hb
      exact (hfree r hr).2 hb
    · intro r hr
      rcases List.mem_append.mp hr with h | h
      · exact hwf.counts r h
      · simp at h
        subst h
        exact wrapInt_inRange 0

theorem addCount_wellFormed {tbl : Table} (hwf : WellFormed tbl) (t : String) (d : Int)
    (now : Nat) : WellFormed (AddCount tbl t d now).1 := by
  unfold AddCount
  cases addCountRead tbl t with
  | error e => exact hwf
  | ok snap =>
    obtain ⟨id, prev⟩ := snap
    simp only
    rw [addCountWrite_tbl]
    exact updateCount_wellFormed hwf (addInt_inRange _ _) _ _ _

theorem setToken_wellFormed {tbl : Table} (hwf : WellFormed tbl) {r : User} (hr : r ∈ tbl)
    {t : String} (hc : tokenConflict tbl r.ID t = false) :
    WellFormed (tbl.map (fun y => if y.ID = r.ID then { y with Token := t } else y)) := by
  have hother := tokenConflict_false_of_mem hr hc
  refine ⟨?_, ?_, ?_, ?_⟩
  · have : (tbl.map (fun y => if y.ID = r.ID then { y with Token := t } else y)).map User.ID
        = tbl.map User.ID := by
      simp only [List.map_map]
      apply List.map_congr_left
      intro y _
      simp only [Function.comp]
      split <;> rfl
    rw [this]
    exact hwf.ids
  · have : (tbl.map (fun y => if y.ID = r.ID then { y with Token := t } else y)).map
        User.Username = tbl.map User.Username := by
      simp only [List.map_map]
      apply List.map_congr_left
      intro y _
      simp only [Function.comp]
      split <;> rfl
    rw [this]
    exact hwf.usernames
  · rw [List.map_map]
    apply List.Nodup.map_on _ (List.Nodup.of_map _ hwf.ids)
    intro x hx y hy hxy
    simp only [Function.comp] at hxy
    by_cases h1 : x.ID = r.ID <;> by_cases h2 : y.ID = r.ID
    · exact eq_of_mem_of_id_eq hwf.ids hx hy (h1.trans h2.symm)
    · simp only [h1, h2, if_true, if_false] at hxy
      exact absurd hxy.symm (hother y hy h2)
    · simp only [h1, h2, if_true, if_false] at hxy
      exact absurd hxy (hother x hx h1)
    · simp only [h1, h2, if_false] at hxy
      exact eq_of_mem_of_token_eq hwf.tokens hx hy hxy
  · intro x hx
    obtain ⟨y, hy, rfl⟩ := mem_setToken.mp hx
    split
    · exact hwf.counts y hy
    · exact hwf.counts y hy

theorem updateTokenByName_wellFormed {tbl : Table} (hwf : WellFormed tbl) (u t : String) :
    WellFormed (UpdateTokenByName tbl u t).1 := by
  unfold UpdateTokenByName updateTokenRead
  cases hf : selectByName tbl u with
  | none => exact hwf
  | some r =>
    have hr : r ∈ tbl := List.mem_of_find?_eq_some hf
    simp only
    rw [updateTokenWrite_tbl]
    by_cases hc : tokenConflict tbl r.ID t = true
    · simpa [hc] using hwf
    · have hc2 : tokenConflict tbl r.ID t = false := by simpa using hc
      simp only [hc2, Bool.false_eq_true, if_false]
      exact setToken_wellFormed hwf hr hc2

theorem call_run_wellFormed {tbl : Table} (hwf : WellFormed tbl) (c : Call) (now : Nat) :
    WellFormed (Call.run tbl c now).1 := by
  cases c with
  | addUser u t s => exact addUser_wellFormed hwf u t s now
  | addCount t d => exact addCount_wellFormed hwf t d now
  | updateTokenByName u t => exact updateTokenByName_wellFormed hwf u t

theorem runCalls_wellFormed (calls : List (Call × Nat)) :
    ∀ {tbl : Table}, WellFormed tbl → WellFormed (runCalls tbl calls) := by
  induction calls with
  | nil => intro tbl h; exact h
  | cons c cs ih =>
    intro tbl h
    unfold runCalls
    simp only [List.foldl_cons]
    exact ih (call_run_wellFormed h c.1 c.2)

/-! ## The insertion -/

/-- C5: in every state reached from the empty table by a sequence of `AddUser`,
`AddCount` and `UpdateTokenByName` calls, no two accounts share a username and no two
share a token; and an `AddUser` whose username or token already belongs to an account
returns the error of the unique constraint and leaves the table unchanged. -/
theorem uniqueness_invariant (calls : List (Call × Nat)) :
    ((runCalls [] calls).map User.Username).Nodup ∧
      ((runCalls [] calls).map User.Token).Nodup ∧
      ∀ (u t : String) (s : Int) (now : Nat),
        (∃ r ∈ runCalls [] calls, r.Username = u ∨ r.Token = t) →
          AddUser (runCalls [] calls) u t s now =
            (runCalls [] calls, some Err.uniqueConstraint) := by
  have hwf := runCalls_wellFormed calls wellFormed_nil
  refine ⟨hwf.usernames, hwf.tokens, ?_⟩
  intro u t s now h
  unfold AddUser
  rw [insertConflict_true h]
  simp

theorem uniqueness_invariant_witness :
    (∃ r ∈ runCalls [] [(Call.addUser "alice" "tok-1" 1, 100)],
        r.Username = "alice" ∨ r.Token = "tok-7") ∧
      AddUser (runCalls [] [(Call.addUser "alice" "tok-1" 1, 100)]) "alice" "tok-7" 1 101 =
        (runCalls [] [(Call.addUser "alice" "tok-1" 1, 100)], some Err.uniqueConstraint) :=
  ⟨by decide,
    (uniqueness_invariant [(Call.addUser "alice" "tok-1" 1, 100)]).2.2 "alice" "tok-7" 1 101
      (by decide)⟩

/-- C6: whenever `AddUser(u, t, s)` returns `nil`, in the resulting table
`QueryUserByName(u)` and `QueryUserByToken(t)` both succeed and return the same record,
with username `u`, token `t`, count 0 and status `s`. -/
theorem addUser_read_your_write (tbl : Table) (u t : String) (s : Int) (now : Nat)
    (hok : (AddUser tbl u t s now).2 = none) :
    ∃ rec : User, QueryUserByName (AddUser tbl u t s now).1 u = .ok rec ∧
      QueryUserByToken (AddUser tbl u t s now).1 t = .ok rec ∧
      rec.Username = u ∧ rec.Token = t ∧ rec.Count = 0 ∧ rec.Status = s := by
  unfold AddUser at hok ⊢
  by_cases hc : insertConflict tbl u t = true
  · simp [hc] at hok
  · have hc2 : insertConflict tbl u t = false := by simpa using hc
    have hfree := insertConflict_false hc2
    simp only [hc2, Bool.false_eq_true, if_false]
    refine ⟨{ ID := nextID tbl, Username := u, Token := t, Count := 0, Status := s,
              CreateTime := now, UpdateTime := now }, ?_, ?_, rfl, rfl, rfl, rfl⟩
    · unfold QueryUserByName selectByName
      have hnone : tbl.find? (fun r => r.Username = u) = none := by
        rw [List.find?_eq_none]
        intro r hr
        simpa using (hfree r hr).1
      rw [List.find?_append, hnone]
      simp
    · unfold QueryUserByToken selectByToken
      have hnone : tbl.find? (fun r => r.Token = t) = none := by
        rw [List.find?_eq_none]
        intro r hr
        simpa using (hfree r hr).2
      rw [List.find?_append, hnone]
      simp

theorem addUser_read_your_write_witness :
    ∃ rec : User, QueryUserByName (AddUser [alice] "bob" "tok-2" 2 150).1 "bob" = .ok rec ∧
      QueryUserByToken (AddUser [alice] "bob" "tok-2" 2 150).1 "tok-2" = .ok rec ∧
      rec.Username = "bob" ∧ rec.Token = "tok-2" ∧ rec.Count = 0 ∧ rec.Status = 2 :=
  addUser_read_your_write [alice] "bob" "tok-2" 2 150 (by decide)

/-! ## Interleaved increments -/

theorem step_read_ok {token : String} {s : Sys} {id : Nat} {prev : Int}
    (h : addCountRead s.tbl token = .ok (id, prev)) (k : Nat) (d : Int) :
    Sys.step token s (.read k d) =
      { s with inFlight := fun j => if j = k then some ⟨id, prev, d⟩ else s.inFlight j } := by
  simp only [Sys.step, h]

theorem step_read_error {token : String} {s : Sys} {e : Err}
    (h : addCountRead s.tbl token = .error e) (k : Nat) (d : Int) :
    Sys.step token s (.read k d) =
      { s with inFlight := fun j => if j = k then none else s.inFlight j } := by
  simp only [Sys.step, h]

theorem step_write_idle {token : String} {s : Sys} {k : Nat} (h : s.inFlight k = none)
    (now : Nat) : Sys.step token s (.write k now) = s := by
  simp only [Sys.step, h]

theorem step_write_some {token : String} {s : Sys} {k : Nat} {snap : Snapshot}
    (h : s.inFlight k = some snap) (now : Nat) :
    Sys.step token s (.write k now) =
      { tbl := (addCountWrite s.tbl snap.id snap.prevCount snap.count now).1
        inFlight := fun j => if j = k then none else s.inFlight j
        succeeded :=
          if (addCountWrite s.tbl snap.id snap.prevCount snap.count now).2 = none
          then snap.count :: s.succeeded else s.succeeded } := by
  simp only [Sys.step, h]

theorem stepInv_step {token : String} {rid : Nat} {c0 : Int} {s : Sys}
    (h : StepInv token rid c0 s) (st : Step) : StepInv token rid c0 (Sys.step token s st) := by
  obtain ⟨hwf, ⟨x, hx, hid, htok, hcount⟩, hfl⟩ := h
  cases st with
  | read k d =>
    have hread : addCountRead s.tbl token = .ok (x.ID, x.Count) := by
      rw [← htok]
      exact addCountRead_of_mem hwf.tokens hx
    rw [step_read_ok hread]
    refine ⟨hwf, ⟨x, hx, hid, htok, hcount⟩, ?_⟩
    intro j snap hj
    by_cases hjk : j = k
    · simp only [hjk, if_true, Option.some.injEq] at hj
      rw [← hj]
      exact hid
    · simp only [hjk, if_false] at hj
      exact hfl j snap hj
  | write k now =>
    cases hk : s.inFlight k with
    | none =>
      rw [step_write_idle hk]
      exact ⟨hwf, ⟨x, hx, hid, htok, hcount⟩, hfl⟩
    | some snap =>
      have hsid : snap.id = x.ID := (hfl k snap hk).trans hid.symm
      have hfl2 : ∀ j sn, (if j = k then none else s.inFlight j) = some sn → sn.id = rid := by
        intro j sn hj
        by_cases hjk : j = k
        · simp [hjk] at hj
        · simp only [hjk, if_false] at hj
          exact hfl j sn hj
      rw [step_write_some hk]
      by_cases hc : x.Count = snap.prevCount
      · have hok : (addCountWrite s.tbl snap.id snap.prevCount snap.count now).2 = none := by
          rw [hsid, ← hc]
          exact addCountWrite_ok_of_mem hx snap.count now
        rw [addCountWrite_tbl, hok]
        refine ⟨updateCount_wellFormed hwf (addInt_inRange _ _) _ _ _, ?_, hfl2⟩
        refine ⟨{ x with Count := addInt x.Count snap.count, UpdateTime := now },
          ?_, hid, htok, ?_⟩
        · rw [hsid, ← hc]
          exact updateCount_row_mem hx _ now
        · simp only [if_true, List.sum_cons]
          unfold addInt
          rw [hcount, wrapInt_add_wrapInt]
          congr 1
          ring
      · have hstale : ¬ ∃ y ∈ s.tbl, y.ID = snap.id ∧ y.Count = snap.prevCount := by
          rintro ⟨y, hy, hyid, hyc⟩
          have := eq_of_mem_of_id_eq hwf.ids hy hx (hyid.trans hsid)
          subst this
          exact hc hyc
        rw [addCountWrite_stale hstale]
        simp only [reduceCtorEq, if_false]
        exact ⟨hwf, ⟨x, hx, hid, htok, hcount⟩, hfl2⟩

theorem stepInv_foldl {token : String} {rid : Nat} {c0 : Int} (steps : List Step) :
    ∀ {s : Sys}, StepInv token rid c0 s →
      StepInv token rid c0 (steps.foldl (Sys.step token) s) := by
  induction steps with
  | nil => intro s h; exact h
  | cons st rest ih =>
    intro s h
    simp only [List.foldl_cons]
    exact ih (stepInv_step h st)

theorem allOnes_step {token : String} {s : Sys} (h : AllOnes s) {st : Step}
    (hst : ∀ k d, st = Step.read k d → d = 1) : AllOnes (Sys.step token s st) := by
  obtain ⟨hs, hfl⟩ := h
  cases st with
  | read k d =>
    have hd : d = 1 := hst k d rfl
    cases hread : addCountRead s.tbl token with
    | error e =>
      rw [step_read_error hread]
      refine ⟨hs, ?_⟩
      intro j snap hj
      by_cases hjk : j = k
      · simp [hjk] at hj
      · simp only [hjk, if_false] at hj
        exact hfl j snap hj
    | ok snap0 =>
      obtain ⟨id, prev⟩ := snap0
      rw [step_read_ok hread]
      refine ⟨hs, ?_⟩
      intro j snap hj
      by_cases hjk : j = k
      · simp only [hjk, if_true, Option.some.injEq] at hj
        rw [← hj]
        exact hd
      · simp only [hjk, if_false] at hj
        exact hfl j snap hj
  | write k now =>
    cases hk : s.inFlight k with
    | none =>
      rw [step_write_idle hk]
      exact ⟨hs, hfl⟩
    | some snap =>
      rw [step_write_some hk]
      refine ⟨?_, ?_⟩
      · intro d hd
        simp only at hd
        split at hd
        · rcases List.mem_cons.mp hd with h1 | h1
          · rw [h1]
            exact hfl k snap hk
          · exact hs d h1
        · exact hs d hd
      · intro j sn hj
        by_cases hjk : j = k
        · simp [hjk] at hj
        · simp only [hjk, if_false] at hj
          exact hfl j sn hj

theorem allOnes_foldl {token : String} (steps : List Step)
    (hst : ∀ k d, Step.read k d ∈ steps → d = 1) :
    ∀ {s : Sys}, AllOnes s → AllOnes (steps.foldl (Sys.step token) s) := by
  induction steps with
  | nil => intro s h; exact h
  | cons st rest ih =>
    intro s h
    simp only [List.foldl_cons]
    apply ih (fun k d hm => hst k d (List.mem_cons_of_mem _ hm))
    exact allOnes_step h (fun k d he => hst k d (by rw [he]; exact List.mem_cons_self _ _))

theorem sum_eq_length_of_ones {l : List Int} (h : ∀ d ∈ l, d = 1) :
    l.sum = (l.length : Int) := by
  induction l with
  | nil => rfl
  | cons a l ih =>
    have ha : a = 1 := h a (List.mem_cons_self _ _)
    have := ih (fun d hd => h d (List.mem_cons_of_mem _ hd))
    simp only [List.sum_cons, List.length_cons, this, ha]
    push_cast
    ring

/-- C2: take `AddCount` as two atomic steps, the `SELECT` and the conditional `UPDATE`.
After every finite interleaving of these steps, from any callers and with any retries,
on the token of an account whose count was `c0`, the stored count is `c0` plus the sum
of the deltas of exactly the calls that returned `nil`, as a Go `int` (so it is that
integer whenever it fits); with `c0 = 0` and every delta 1 it is the number of calls that
returned `nil`. -/
theorem addCount_no_lost_update (tbl : Table) (hwf : WellFormed tbl) (r : User)
    (hr : r ∈ tbl) (token : String) (htok : r.Token = token) (steps : List Step) :
    (QueryUserByToken (runSteps token tbl steps).tbl token).map User.Count =
        .ok (wrapInt (r.Count + (runSteps token tbl steps).succeeded.sum)) ∧
      (InRange (r.Count + (runSteps token tbl steps).succeeded.sum) →
        (QueryUserByToken (runSteps token tbl steps).tbl token).map User.Count =
          .ok (r.Count + (runSteps token tbl steps).succeeded.sum)) ∧
      (r.Count = 0 → (∀ k d, Step.read k d ∈ steps → d = 1) →
        (QueryUserByToken (runSteps token tbl steps).tbl token).map User.Count =
            .ok (wrapInt (runSteps token tbl steps).succeeded.length) ∧
          ((runSteps token tbl steps).succeeded.length < 2 ^ 63 →
            (QueryUserByToken (runSteps token tbl steps).tbl token).map User.Count =
              .ok ((runSteps token tbl steps).succeeded.length : Int))) := by
  have hinit : StepInv token r.ID r.Count
      { tbl := tbl, inFlight := fun _ => none, succeeded := [] } := by
    refine ⟨hwf, ⟨r, hr, rfl, htok, ?_⟩, ?_⟩
    · simp only [List.sum_nil, add_zero]
      exact (wrapInt_of_inRange (hwf.counts r hr)).symm
    · intro k snap h
      cases h
  have hinv : StepInv token r.ID r.Count (runSteps token tbl steps) :=
    stepInv_foldl steps hinit
  obtain ⟨hwf2, ⟨x, hx, -, hxtok, hcount⟩, -⟩ := hinv
  have hsel := selectByToken_of_mem hwf2.tokens hx
  rw [hxtok] at hsel
  have hq : (QueryUserByToken (runSteps token tbl steps).tbl token).map User.Count =
      .ok (wrapInt (r.Count + (runSteps token tbl steps).succeeded.sum)) := by
    unfold QueryUserByToken
    rw [hsel]
    simp only [Except.map]
    rw [hcount]
  refine ⟨hq, ?_, ?_⟩
  · intro hfit
    rw [hq, wrapInt_of_inRange hfit]
  · intro h0 hones
    have hall : AllOnes (runSteps token tbl steps) :=
      allOnes_foldl steps hones
        (show AllOnes { tbl := tbl, inFlight := fun _ => none, succeeded := [] } from
          ⟨fun d hd => (by cases hd), fun k snap h => (by cases h)⟩)
    have hsum := sum_eq_length_of_ones hall.1
    rw [hq, h0, hsum, zero_add]
    refine ⟨rfl, ?_⟩
    intro hlt
    rw [wrapInt_of_inRange]
    unfold InRange
    constructor
    · have : (0 : Int) ≤ ((runSteps token tbl steps).succeeded.length : Int) :=
        Int.natCast_nonneg _
      omega
    · exact_mod_cast hlt

theorem addCount_no_lost_update_witness :
    (QueryUserByToken (runSteps "tok-1" [alice]
        [.read 0 3, .read 1 3, .write 0 200, .write 1 201, .read 1 3, .write 1 202]).tbl
        "tok-1").map User.Count = .ok 11 ∧
      (runSteps "tok-1" [alice]
        [.read 0 3, .read 1 3, .write 0 200, .write 1 201, .read 1 3, .write 1 202]).succeeded
        = [3, 3] :=
  ⟨(addCount_no_lost_update [alice] ⟨by decide, by decide, by decide, by decide⟩ alice
      (by decide) "tok-1" rfl
      [.read 0 3, .read 1 3, .write 0 200, .write 1 201, .read 1 3, .write 1 202]).1,
    by decide⟩

end Models
